import Mathlib

/-!
Shallow embedding of `MontyHall.py` (the Monty Hall game simulator).

Python integers are modelled as `ℤ`.  The single source of randomness
(`random.choice`, `random.randint`) is modelled by an explicit natural-number
seed: `random.choice(xs)` becomes `randomChoice xs k = xs.get? (k % xs.length)`,
which fails (returns `none`, like the Python `IndexError`) exactly when the
list is empty, and is uniform over the list as `k` ranges uniformly.
Printed door rows (tab-separated strings of door symbols) are modelled as
`List Char`, one symbol per door in order.
-/

namespace MontyHall

/-- Python `range(a, b)` as a list of integers `a, a+1, ..., b-1`. -/
def intRange (a b : ℤ) : List ℤ :=
  (List.range (b - a).toNat).map (fun j : ℕ => a + (j : ℤ))

/-- Python `random.choice(xs)` with an explicit random seed `k`: returns
`xs[k % len(xs)]`, or `none` (the `IndexError`) when `xs` is empty
(for `xs = []` we have `k % 0 = k` and `[].get? k = none`). -/
def randomChoice (xs : List ℤ) (k : ℕ) : Option ℤ :=
  xs.get? (k % xs.length)

/-- Python `random.randint(a, b)` (inclusive bounds) with explicit seed `r`. -/
def randint (a b : ℤ) (r : ℕ) : ℤ :=
  a + (r % (b + 1 - a).toNat : ℕ)

/-- `MontyHall.py` lines 116-117: the candidate goat doors, i.e. all doors in
`range(1, num_doors + 1)` that are neither the chosen door nor the car door. -/
def goat_doors (chosen_door car_door num_doors : ℤ) : List ℤ :=
  (intRange 1 (num_doors + 1)).filter (fun i => !(i == chosen_door || i == car_door))

/-- `MontyHall.py` lines 124-127: the door row printed by `open_goat_doors`.
Door 1 first (`"X" if closed_door == 1 or chosen_door == 1 else "G"`), then
doors `2 .. num_doors`; a door shows `X` when it stays closed, `G` otherwise. -/
def reveal_row (closed_door chosen_door num_doors : ℤ) : List Char :=
  (if closed_door == 1 || chosen_door == 1 then 'X' else 'G') ::
    (intRange 2 (num_doors + 1)).map (fun door_num =>
      if door_num == closed_door || door_num == chosen_door then 'X' else 'G')

/-- `MontyHall.py` lines 98-130, `open_goat_doors`: if the user chose
incorrectly the closed door is the car door, otherwise it is a random goat
door.  Returns the printed row together with the closed door; `none` models
the `IndexError` branch of `random.choice` on an empty candidate list. -/
def open_goat_doors (chosen_door car_door num_doors : ℤ) (k : ℕ) :
    Option (List Char × ℤ) :=
  let user_is_incorrect : Bool := chosen_door != car_door
  let closed? : Option ℤ :=
    if user_is_incorrect then some car_door
    else randomChoice (goat_doors chosen_door car_door num_doors) k
  match closed? with
  | none => none
  | some closed_door => some (reveal_row closed_door chosen_door num_doors, closed_door)

/-- `MontyHall.py` lines 165-168: the final full-layout row printed by
`show_final`; the car door shows `C`, every other door shows `G`. -/
def final_row (car_door num_doors : ℤ) : List Char :=
  (if car_door == 1 then 'C' else 'G') ::
    (intRange 2 (num_doors + 1)).map (fun door_num =>
      if car_door == door_num then 'C' else 'G')

/-- `MontyHall.py` lines 151-174, `show_final`: prints the full layout and
returns whether the user won (`chosen_door == car_door`). -/
def show_final (chosen_door car_door num_doors : ℤ) : List Char × Bool :=
  (final_row car_door num_doors, chosen_door == car_door)

/-- `MontyHall.py` lines 7-26, `input_is_valid`: the raw input either failed
integer parsing (`none`, the `ValueError` branch) or parsed to an integer that
is checked against the criteria function. -/
def input_is_valid (user_input : Option ℤ) (criteria_fn : ℤ → Bool) : Bool :=
  match user_input with
  | none => false
  | some n => criteria_fn n

/-- `MontyHall.py` lines 28-51, `get_user_input`: re-prompts until an input
satisfies the criteria.  The stream of user inputs (each either a parsed
integer or a parse failure) is explicit; `none` models a stream that never
yields a valid input (in Python the loop would not terminate). -/
def get_user_input (criteria_fn : ℤ → Bool) (inputs : List (Option ℤ)) : Option ℤ :=
  match inputs.find? (fun i => input_is_valid i criteria_fn) with
  | some (some n) => some n
  | _ => none

/-- `MontyHall.py` lines 176-202, `play_game` (the round controller, keeping
only the dataflow: prints are modelled by the row components of the results).
Returns `(first choice, closed door, final choice, won)`, or `none` when an
input stream is exhausted or the reveal fails. -/
def play_game (num_doors : ℤ) (carRand kChoice : ℕ)
    (firstInputs finalInputs : List (Option ℤ)) : Option (ℤ × ℤ × ℤ × Bool) :=
  let car_door : ℤ := randint 1 num_doors carRand
  let door_criteria₁ : ℤ → Bool := fun num => decide (num ≥ 1) && decide (num ≤ num_doors)
  match get_user_input door_criteria₁ firstInputs with
  | none => none
  | some chosen_door =>
    match open_goat_doors chosen_door car_door num_doors kChoice with
    | none => none
    | some (_, closed_door) =>
      let door_criteria₂ : ℤ → Bool := fun num => num == chosen_door || num == closed_door
      match get_user_input door_criteria₂ finalInputs with
      | none => none
      | some final_choice =>
        some (chosen_door, closed_door, final_choice,
              (show_final final_choice car_door num_doors).2)

/-- The opened-door set induced by a reveal: all doors except the chosen door
and the closed alternative (the `G` positions of the printed row). -/
def openedDoors (chosen_door closed_door num_doors : ℤ) : Finset ℤ :=
  (Finset.Icc 1 num_doors).filter (fun d => d ≠ chosen_door ∧ d ≠ closed_door)

theorem mem_intRange {a b i : ℤ} : i ∈ intRange a b ↔ a ≤ i ∧ i < b := by
  simp only [intRange, List.mem_map, List.mem_range]
  constructor
  · rintro ⟨j, hj, rfl⟩
    omega
  · rintro ⟨h1, h2⟩
    exact ⟨(i - a).toNat, by omega, by omega⟩

theorem nodup_intRange {a b : ℤ} : (intRange a b).Nodup := by
  refine List.Nodup.map (fun x y h => by omega) (List.nodup_range _)

theorem length_intRange {a b : ℤ} : (intRange a b).length = (b - a).toNat := by
  simp [intRange]

theorem mem_goat_doors {c p N i : ℤ} :
    i ∈ goat_doors c p N ↔ (1 ≤ i ∧ i ≤ N ∧ i ≠ c ∧ i ≠ p) := by
  simp only [goat_doors, List.mem_filter, mem_intRange, Bool.not_eq_true',
    Bool.or_eq_false_iff, beq_eq_false_iff_ne, ne_eq]
  omega

theorem nodup_goat_doors {c p N : ℤ} : (goat_doors c p N).Nodup :=
  List.Nodup.filter _ nodup_intRange

theorem toFinset_goat_doors {c p N : ℤ} :
    (goat_doors c p N).toFinset = (Finset.Icc 1 N).filter (fun d => d ≠ c ∧ d ≠ p) := by
  ext d
  simp only [List.mem_toFinset, mem_goat_doors, Finset.mem_filter, Finset.mem_Icc, ne_eq]
  tauto

theorem length_goat_doors_of_ne {c p N : ℤ} (hc : 1 ≤ c) (hc' : c ≤ N)
    (hp : 1 ≤ p) (hp' : p ≤ N) (hne : c ≠ p) :
    (goat_doors c p N).length = (N - 2).toNat := by
  have h1 : (goat_doors c p N).toFinset.card = (goat_doors c p N).length :=
    List.toFinset_card_of_nodup nodup_goat_doors
  rw [← h1, toFinset_goat_doors]
  have h2 : (Finset.Icc 1 N).filter (fun d => d ≠ c ∧ d ≠ p)
      = Finset.Icc 1 N \ {c, p} := by
    ext d
    simp only [Finset.mem_filter, Finset.mem_sdiff, Finset.mem_insert,
      Finset.mem_singleton, not_or, ne_eq]
  have hsub : ({c, p} : Finset ℤ) ⊆ Finset.Icc 1 N := by
    intro d hd
    simp only [Finset.mem_insert, Finset.mem_singleton] at hd
    rcases hd with rfl | rfl <;> simp only [Finset.mem_Icc] <;> omega
  rw [h2, Finset.card_sdiff hsub, Finset.card_pair hne, Int.card_Icc]
  omega

theorem length_goat_doors_of_eq {c N : ℤ} (hc : 1 ≤ c) (hc' : c ≤ N) :
    (goat_doors c c N).length = (N - 1).toNat := by
  have h1 : (goat_doors c c N).toFinset.card = (goat_doors c c N).length :=
    List.toFinset_card_of_nodup nodup_goat_doors
  rw [← h1, toFinset_goat_doors]
  have h2 : (Finset.Icc 1 N).filter (fun d => d ≠ c ∧ d ≠ c)
      = Finset.Icc 1 N \ {c} := by
    ext d
    simp only [Finset.mem_filter, Finset.mem_sdiff, Finset.mem_singleton, ne_eq]
    tauto
  have hsub : ({c} : Finset ℤ) ⊆ Finset.Icc 1 N := by
    intro d hd
    simp only [Finset.mem_singleton] at hd
    subst hd
    simp only [Finset.mem_Icc]
    omega
  rw [h2, Finset.card_sdiff hsub, Finset.card_singleton, Int.card_Icc]
  omega

theorem randomChoice_of_ne_nil {xs : List ℤ} (h : xs ≠ []) (k : ℕ) :
    ∃ v, randomChoice xs k = some v ∧ v ∈ xs ∧
      xs.get? (k % xs.length) = some v := by
  have hlen : 0 < xs.length := List.length_pos.mpr h
  have hlt : k % xs.length < xs.length := Nat.mod_lt _ hlen
  rw [randomChoice, List.get?_eq_get hlt]
  exact ⟨_, rfl, List.get_mem xs _ hlt, rfl⟩

theorem goat_doors_ne_nil {c p N : ℤ} (hN : 3 ≤ N) (hc : 1 ≤ c) (hc' : c ≤ N)
    (hp : 1 ≤ p) (hp' : p ≤ N) :
    goat_doors c p N ≠ [] := by
  rw [← List.length_pos]
  by_cases hcp : c = p
  · subst hcp
    rw [length_goat_doors_of_eq hc hc']
    omega
  · rw [length_goat_doors_of_ne hc hc' hp hp' hcp]
    omega

theorem open_goat_doors_of_ne {c p N : ℤ} (k : ℕ) (hne : c ≠ p) :
    open_goat_doors c p N k = some (reveal_row p c N, p) := by
  simp [open_goat_doors, bne_iff_ne, hne]

theorem open_goat_doors_of_eq {c N : ℤ} (k : ℕ) {v : ℤ}
    (hv : randomChoice (goat_doors c c N) k = some v) :
    open_goat_doors c c N k = some (reveal_row v c N, v) := by
  simp [open_goat_doors, hv]

theorem open_goat_doors_isSome {N c p : ℤ} (k : ℕ) (hN : 3 ≤ N)
    (hc : 1 ≤ c) (hc' : c ≤ N) (hp : 1 ≤ p) (hp' : p ≤ N) :
    (open_goat_doors c p N k).isSome = true := by
  by_cases hcp : c = p
  · subst hcp
    obtain ⟨v, hv, -, -⟩ := randomChoice_of_ne_nil (goat_doors_ne_nil hN hc hc' hc hc') k
    rw [open_goat_doors_of_eq k hv]
    rfl
  · rw [open_goat_doors_of_ne k hcp]
    rfl

theorem randomChoice_mem {xs : List ℤ} {k : ℕ} {v : ℤ}
    (h : randomChoice xs k = some v) : v ∈ xs :=
  List.get?_mem h

theorem mem_openedDoors {c cl N d : ℤ} :
    d ∈ openedDoors c cl N ↔ (1 ≤ d ∧ d ≤ N ∧ d ≠ c ∧ d ≠ cl) := by
  simp only [openedDoors, Finset.mem_filter, Finset.mem_Icc, ne_eq]
  tauto

theorem card_openedDoors {c cl N : ℤ} (hc : 1 ≤ c) (hc' : c ≤ N)
    (hcl : 1 ≤ cl) (hcl' : cl ≤ N) (hne : c ≠ cl) :
    (openedDoors c cl N).card = (N - 2).toNat := by
  have h1 : openedDoors c cl N = (goat_doors c cl N).toFinset :=
    toFinset_goat_doors.symm
  rw [h1, List.toFinset_card_of_nodup nodup_goat_doors,
    length_goat_doors_of_ne hc hc' hcl hcl' hne]

theorem openedDoors_union {c cl N : ℤ} (hc : 1 ≤ c) (hc' : c ≤ N)
    (hcl : 1 ≤ cl) (hcl' : cl ≤ N) :
    openedDoors c cl N ∪ {c, cl} = Finset.Icc 1 N := by
  ext d
  simp only [Finset.mem_union, Finset.mem_insert, Finset.mem_singleton,
    openedDoors, Finset.mem_filter, Finset.mem_Icc, ne_eq]
  omega

theorem bor_ite_eq {x y z w : ℤ} {a b : Char} :
    (if x == y || z == w then a else b) = (if (x = y ∨ z = w) then a else b) := by
  by_cases h1 : x = y <;> by_cases h2 : z = w <;> simp [h1, h2]

theorem beq_ite_eq {x y : ℤ} {a b : Char} :
    (if x == y then a else b) = (if x = y then a else b) := by
  by_cases h : x = y <;> simp [h]

theorem get?_intRange {a b : ℤ} {j : ℕ} (h : (j : ℤ) < b - a) :
    (intRange a b).get? j = some (a + j) := by
  have hj : j < (b - a).toNat := by omega
  simp [intRange, List.getElem?_map, List.getElem?_range hj]

theorem length_final_row {p N : ℤ} (hN : 1 ≤ N) :
    (final_row p N).length = N.toNat := by
  simp only [final_row, List.length_cons, List.length_map, length_intRange]
  omega

theorem get?_final_row {p N : ℤ} {j : ℕ} (hj : j < N.toNat) :
    (final_row p N).get? j = some (if p = 1 + (j : ℤ) then 'C' else 'G') := by
  cases j with
  | zero =>
    rw [final_row, List.get?_cons_zero, beq_ite_eq]
    exact congrArg some (if_congr (by omega) rfl rfl)
  | succ m =>
    have hm : (m : ℤ) < (N + 1) - 2 := by omega
    rw [final_row, List.get?_cons_succ, List.get?_map, get?_intRange hm]
    simp only [Option.map_some']
    rw [beq_ite_eq]
    exact congrArg some (if_congr (by omega) rfl rfl)

theorem length_reveal_row {cl c N : ℤ} (hN : 1 ≤ N) :
    (reveal_row cl c N).length = N.toNat := by
  simp only [reveal_row, List.length_cons, List.length_map, length_intRange]
  omega

theorem get?_reveal_row {cl c N : ℤ} {j : ℕ} (hj : j < N.toNat) :
    (reveal_row cl c N).get? j
      = some (if (1 + (j : ℤ) = c ∨ 1 + (j : ℤ) = cl) then 'X' else 'G') := by
  cases j with
  | zero =>
    rw [reveal_row, List.get?_cons_zero, bor_ite_eq]
    exact congrArg some (if_congr (by omega) rfl rfl)
  | succ m =>
    have hm : (m : ℤ) < (N + 1) - 2 := by omega
    rw [reveal_row, List.get?_cons_succ, List.get?_map, get?_intRange hm]
    simp only [Option.map_some']
    rw [bor_ite_eq]
    exact congrArg some (if_congr (by omega) rfl rfl)

theorem get_user_input_spec {crit : ℤ → Bool} {inputs : List (Option ℤ)} {v : ℤ}
    (h : get_user_input crit inputs = some v) : crit v = true := by
  unfold get_user_input at h
  split at h
  · rename_i n heq
    have hvalid := List.find?_some heq
    injection h with h'
    subst h'
    simpa [input_is_valid] using hvalid
  · cases h

theorem open_goat_doors_cases {c p N : ℤ} {k : ℕ} {row : List Char} {cl : ℤ}
    (h : open_goat_doors c p N k = some (row, cl)) :
    row = reveal_row cl c N ∧
      ((c ≠ p ∧ cl = p) ∨ (c = p ∧ cl ∈ goat_doors c p N)) := by
  simp only [open_goat_doors] at h
  split at h
  · cases h
  · rename_i v heq
    simp only [Option.some.injEq, Prod.mk.injEq] at h
    obtain ⟨h1, h2⟩ := h
    subst h2
    refine ⟨h1.symm, ?_⟩
    by_cases hcp : c = p
    · subst hcp
      rw [if_neg (by simp)] at heq
      exact Or.inr ⟨rfl, randomChoice_mem heq⟩
    · rw [if_pos (by simpa [bne_iff_ne] using hcp)] at heq
      injection heq with heq'
      exact Or.inl ⟨hcp, heq'.symm⟩

/-- C1: for every door count N in [3,10] and all chosen/prize doors in [1,N]
with chosenDoor ≠ prizeDoor, `open_goat_doors` returns the prize door as the
closed alternative for every random seed (consuming no randomness), and every
other non-chosen door is opened. -/
theorem open_goat_doors_of_wrong_guess (N c p : ℤ) (k : ℕ)
    (hN : 3 ≤ N) (hN' : N ≤ 10) (hc : 1 ≤ c) (hc' : c ≤ N)
    (hp : 1 ≤ p) (hp' : p ≤ N) (hne : c ≠ p) :
    open_goat_doors c p N k = some (reveal_row p c N, p) ∧
    (∀ d : ℤ, 1 ≤ d → d ≤ N → d ≠ c → d ≠ p → d ∈ openedDoors c p N) :=
  ⟨open_goat_doors_of_ne k hne,
   fun _ h1 h2 h3 h4 => mem_openedDoors.mpr ⟨h1, h2, h3, h4⟩⟩

theorem open_goat_doors_of_wrong_guess_witness :
    open_goat_doors 1 2 3 0 = some (reveal_row 2 1 3, 2) ∧
    (∀ d : ℤ, 1 ≤ d → d ≤ 3 → d ≠ 1 → d ≠ 2 → d ∈ openedDoors 1 2 3) :=
  open_goat_doors_of_wrong_guess 3 1 2 0 (by decide) (by decide) (by decide)
    (by decide) (by decide) (by decide) (by decide)

/-- C2: for every door count N in [3,10] and all finalChoice/prize doors in
[1,N], `show_final` reports a win exactly when the final choice is the prize
door. -/
theorem show_final_won_iff (N c p : ℤ) (hN : 3 ≤ N) (hN' : N ≤ 10)
    (hc : 1 ≤ c) (hc' : c ≤ N) (hp : 1 ≤ p) (hp' : p ≤ N) :
    (show_final c p N).2 = true ↔ c = p := by
  simp [show_final]

theorem show_final_won_iff_witness :
    ((show_final 2 2 3).2 = true ↔ (2 : ℤ) = 2) :=
  show_final_won_iff 3 2 2 (by decide) (by decide) (by decide) (by decide)
    (by decide) (by decide)

/-- C3: for every door count N in [3,10], all chosen/prize doors in [1,N] and
every random seed, the reveal yields exactly one closed alternative distinct
from the chosen door, and the opened-door set (all doors except the chosen
door and the closed alternative) has size N - 2, contains neither the chosen
door nor the prize door, and together with the chosen door and the closed
alternative covers all N doors. -/
theorem open_goat_doors_invariants (N c p : ℤ) (k : ℕ)
    (hN : 3 ≤ N) (hN' : N ≤ 10) (hc : 1 ≤ c) (hc' : c ≤ N)
    (hp : 1 ≤ p) (hp' : p ≤ N) :
    ∃ cl : ℤ, open_goat_doors c p N k = some (reveal_row cl c N, cl) ∧
      cl ≠ c ∧ 1 ≤ cl ∧ cl ≤ N ∧
      (openedDoors c cl N).card = (N - 2).toNat ∧
      c ∉ openedDoors c cl N ∧ p ∉ openedDoors c cl N ∧
      openedDoors c cl N ∪ {c, cl} = Finset.Icc 1 N := by
  by_cases hcp : c = p
  · subst hcp
    obtain ⟨v, hv, hvm, -⟩ :=
      randomChoice_of_ne_nil (goat_doors_ne_nil hN hc hc' hc hc') k
    obtain ⟨hv1, hv2, hv3, -⟩ := mem_goat_doors.mp hvm
    refine ⟨v, open_goat_doors_of_eq k hv, hv3, hv1, hv2,
      card_openedDoors hc hc' hv1 hv2 (Ne.symm hv3), ?_, ?_,
      openedDoors_union hc hc' hv1 hv2⟩
    · exact fun hmem => (mem_openedDoors.mp hmem).2.2.1 rfl
    · exact fun hmem => (mem_openedDoors.mp hmem).2.2.1 rfl
  · refine ⟨p, open_goat_doors_of_ne k hcp, Ne.symm hcp, hp, hp',
      card_openedDoors hc hc' hp hp' hcp, ?_, ?_,
      openedDoors_union hc hc' hp hp'⟩
    · exact fun hmem => (mem_openedDoors.mp hmem).2.2.1 rfl
    · exact fun hmem => (mem_openedDoors.mp hmem).2.2.2 rfl

theorem open_goat_doors_invariants_witness :
    ∃ cl : ℤ, open_goat_doors 1 1 4 0 = some (reveal_row cl 1 4, cl) ∧
      cl ≠ 1 ∧ 1 ≤ cl ∧ cl ≤ 4 ∧
      (openedDoors 1 cl 4).card = ((4 : ℤ) - 2).toNat ∧
      (1 : ℤ) ∉ openedDoors 1 cl 4 ∧ (1 : ℤ) ∉ openedDoors 1 cl 4 ∧
      openedDoors 1 cl 4 ∪ {1, cl} = Finset.Icc 1 4 :=
  open_goat_doors_invariants 4 1 1 0 (by decide) (by decide) (by decide)
    (by decide) (by decide) (by decide)

/-- C4: when the chosen door is the prize door, the closed alternative is
drawn uniformly from the candidate goat doors (modelled by indexing the
candidate list with the seed modulo its length: the list is duplicate-free,
every candidate is reached by some seed, and the result is always a
candidate); in particular it is a non-prize door distinct from the chosen
door, so switching to it always loses. -/
theorem open_goat_doors_of_right_guess_uniform (N c : ℤ) (k : ℕ)
    (hN : 3 ≤ N) (hN' : N ≤ 10) (hc : 1 ≤ c) (hc' : c ≤ N) :
    (∀ d : ℤ, d ∈ goat_doors c c N ↔ (1 ≤ d ∧ d ≤ N ∧ d ≠ c)) ∧
    (goat_doors c c N).Nodup ∧
    (∃ cl, open_goat_doors c c N k = some (reveal_row cl c N, cl) ∧
      cl ∈ goat_doors c c N ∧
      (goat_doors c c N).get? (k % (goat_doors c c N).length) = some cl ∧
      (show_final cl c N).2 = false) ∧
    (∀ g ∈ goat_doors c c N, ∃ j : ℕ,
      open_goat_doors c c N j = some (reveal_row g c N, g)) := by
  refine ⟨fun d => ?_, nodup_goat_doors, ?_, fun g hg => ?_⟩
  · rw [mem_goat_doors]
    tauto
  · obtain ⟨v, hv, hvm, hget⟩ :=
      randomChoice_of_ne_nil (goat_doors_ne_nil hN hc hc' hc hc') k
    have hvc : v ≠ c := (mem_goat_doors.mp hvm).2.2.1
    exact ⟨v, open_goat_doors_of_eq k hv, hvm, hget, by simp [show_final, hvc]⟩
  · obtain ⟨⟨j, hjlt⟩, hget⟩ := List.mem_iff_get.mp hg
    refine ⟨j, open_goat_doors_of_eq j ?_⟩
    rw [randomChoice, Nat.mod_eq_of_lt hjlt, List.get?_eq_get hjlt, hget]

theorem open_goat_doors_of_right_guess_uniform_witness :
    (∀ d : ℤ, d ∈ goat_doors 2 2 3 ↔ (1 ≤ d ∧ d ≤ 3 ∧ d ≠ 2)) ∧
    (goat_doors 2 2 3).Nodup ∧
    (∃ cl, open_goat_doors 2 2 3 0 = some (reveal_row cl 2 3, cl) ∧
      cl ∈ goat_doors 2 2 3 ∧
      (goat_doors 2 2 3).get? (0 % (goat_doors 2 2 3).length) = some cl ∧
      (show_final cl 2 3).2 = false) ∧
    (∀ g ∈ goat_doors 2 2 3, ∃ j : ℕ,
      open_goat_doors 2 2 3 j = some (reveal_row g 2 3, g)) :=
  open_goat_doors_of_right_guess_uniform 3 2 0 (by decide) (by decide)
    (by decide) (by decide)

/-- C5 counterexample: with doorCount = 3 and chosenDoor = prizeDoor = 1 the
candidate goat-door list computed by the reveal is [2, 3], which has two
elements rather than exactly one, and the random choice genuinely depends on
the seed. -/
theorem three_doors_right_guess_two_goats :
    (goat_doors 1 1 3).length ≠ 1 ∧ goat_doors 1 1 3 = [2, 3] ∧
    open_goat_doors 1 1 3 0 ≠ open_goat_doors 1 1 3 1 := by
  decide

/-- C5 (amended): for doorCount = 3 the candidate goat-door list has exactly
one element when chosenDoor ≠ prizeDoor and exactly two elements when
chosenDoor = prizeDoor; in both cases it is nonempty and the reveal operation
does not error. -/
theorem three_doors_goat_count (c p : ℤ) (k : ℕ)
    (hc : 1 ≤ c) (hc' : c ≤ 3) (hp : 1 ≤ p) (hp' : p ≤ 3) :
    (goat_doors c p 3).length = (if c = p then 2 else 1) ∧
    goat_doors c p 3 ≠ [] ∧
    (open_goat_doors c p 3 k).isSome = true := by
  refine ⟨?_, goat_doors_ne_nil (by norm_num) hc hc' hp hp',
    open_goat_doors_isSome k (by norm_num) hc hc' hp hp'⟩
  by_cases hcp : c = p
  · subst hcp
    rw [if_pos rfl, length_goat_doors_of_eq hc hc']
    decide
  · rw [if_neg hcp, length_goat_doors_of_ne hc hc' hp hp' hcp]
    decide

theorem three_doors_goat_count_witness :
    (goat_doors 3 1 3).length = (if (3 : ℤ) = 1 then 2 else 1) ∧
    goat_doors 3 1 3 ≠ [] ∧
    (open_goat_doors 3 1 3 5).isSome = true :=
  three_doors_goat_count 3 1 5 (by decide) (by decide) (by decide) (by decide)

/-- C6: for every door count N in [3,10], all chosen/prize doors in [1,N] and
every random seed, the reveal never fails: the candidate goat-door list has
N-1 elements when chosenDoor = prizeDoor and N-2 otherwise, hence is
nonempty, and `open_goat_doors` always returns a result. -/
theorem open_goat_doors_never_fails (N c p : ℤ) (k : ℕ)
    (hN : 3 ≤ N) (hN' : N ≤ 10) (hc : 1 ≤ c) (hc' : c ≤ N)
    (hp : 1 ≤ p) (hp' : p ≤ N) :
    (goat_doors c p N).length
      = (if c = p then (N - 1).toNat else (N - 2).toNat) ∧
    1 ≤ (goat_doors c p N).length ∧
    (open_goat_doors c p N k).isSome = true := by
  refine ⟨?_, ?_, open_goat_doors_isSome k hN hc hc' hp hp'⟩
  · by_cases hcp : c = p
    · subst hcp
      rw [if_pos rfl]
      exact length_goat_doors_of_eq hc hc'
    · rw [if_neg hcp]
      exact length_goat_doors_of_ne hc hc' hp hp' hcp
  · by_cases hcp : c = p
    · subst hcp
      rw [length_goat_doors_of_eq hc hc']
      omega
    · rw [length_goat_doors_of_ne hc hc' hp hp' hcp]
      omega

theorem open_goat_doors_never_fails_witness :
    (goat_doors 4 4 10).length
      = (if (4 : ℤ) = 4 then ((10 : ℤ) - 1).toNat else ((10 : ℤ) - 2).toNat) ∧
    1 ≤ (goat_doors 4 4 10).length ∧
    (open_goat_doors 4 4 10 7).isSome = true :=
  open_goat_doors_never_fails 10 4 4 7 (by decide) (by decide) (by decide)
    (by decide) (by decide) (by decide)

/-- C7: whenever a round of `play_game` reaches resolution, the final choice
passed to the resolver equals either the first choice or the closed
alternative; the final-choice predicate accepts an integer exactly when it
equals one of those two doors, and the input loop only returns values
satisfying its predicate. -/
theorem play_game_final_choice_valid (num_doors : ℤ) (carRand kChoice : ℕ)
    (firstInputs finalInputs : List (Option ℤ)) (c0 cl f : ℤ) (w : Bool)
    (h : play_game num_doors carRand kChoice firstInputs finalInputs
        = some (c0, cl, f, w)) :
    (f = c0 ∨ f = cl) ∧
    (∀ z : ℤ, ((z == c0 || z == cl) = true) ↔ (z = c0 ∨ z = cl)) ∧
    (∀ (crit : ℤ → Bool) (inputs : List (Option ℤ)) (v : ℤ),
        get_user_input crit inputs = some v → crit v = true) := by
  refine ⟨?_, fun z => by simp, fun crit inputs v hv => get_user_input_spec hv⟩
  simp only [play_game] at h
  split at h
  · cases h
  · rename_i chosen heq1
    split at h
    · cases h
    · rename_i pr heq2
      split at h
      · cases h
      · rename_i fc heq3
        simp only [Option.some.injEq, Prod.mk.injEq] at h
        obtain ⟨rfl, rfl, rfl, -⟩ := h
        have := get_user_input_spec heq3
        simpa using this

theorem play_game_final_choice_valid_witness :
    ((2 : ℤ) = 1 ∨ (2 : ℤ) = 2) ∧
    (∀ z : ℤ, ((z == (1 : ℤ) || z == (2 : ℤ)) = true) ↔ (z = 1 ∨ z = 2)) ∧
    (∀ (crit : ℤ → Bool) (inputs : List (Option ℤ)) (v : ℤ),
        get_user_input crit inputs = some v → crit v = true) :=
  play_game_final_choice_valid 3 1 0 [some 1] [some 2] 1 2 2 true (by decide)

/-- C8: in the concrete scenario doorCount = 3, prizeDoor = 2, chosenDoor = 1,
the reveal returns closed alternative 2 for every random seed, the opened-door
set is {3} (the printed row is X X G), and switching to door 2 wins. -/
theorem three_doors_switch_scenario (k : ℕ) :
    open_goat_doors 1 2 3 k = some (reveal_row 2 1 3, 2) ∧
    reveal_row 2 1 3 = ['X', 'X', 'G'] ∧
    openedDoors 1 2 3 = {3} ∧
    (show_final 2 2 3).2 = true :=
  ⟨open_goat_doors_of_ne k (by decide), by decide, by decide, by decide⟩

/-- C9: for every door count N in [3,10] and prize door in [1,N], the full
layout produced at resolution marks each of the N doors as either prize (C)
or goat (G), marking exactly the prize position as the prize, independently
of the chosen door. -/
theorem show_final_layout_marks_prize (N c p : ℤ)
    (hN : 3 ≤ N) (hN' : N ≤ 10) (hp : 1 ≤ p) (hp' : p ≤ N) :
    (show_final c p N).1 = final_row p N ∧
    (final_row p N).length = N.toNat ∧
    (∀ j : ℕ, j < N.toNat →
      (((final_row p N).get? j = some 'C') ↔ p = 1 + (j : ℤ)) ∧
      ((final_row p N).get? j = some 'C' ∨ (final_row p N).get? j = some 'G')) := by
  refine ⟨rfl, length_final_row (by omega), fun j hj => ?_⟩
  rw [get?_final_row hj]
  by_cases hpj : p = 1 + (j : ℤ)
  · simp [hpj]
  · simp [hpj]

theorem show_final_layout_marks_prize_witness :
    (show_final 1 3 5).1 = final_row 3 5 ∧
    (final_row 3 5).length = (5 : ℤ).toNat ∧
    (∀ j : ℕ, j < (5 : ℤ).toNat →
      (((final_row 3 5).get? j = some 'C') ↔ (3 : ℤ) = 1 + (j : ℤ)) ∧
      ((final_row 3 5).get? j = some 'C' ∨ (final_row 3 5).get? j = some 'G')) :=
  show_final_layout_marks_prize 5 1 3 (by decide) (by decide) (by decide)
    (by decide)

/-- C10: for every door count N in [3,10], all chosen/prize doors in [1,N]
and every random seed, the row printed by the reveal is consistent with the
returned closed alternative: a door is displayed as closed (X) exactly when
it is the chosen door or the returned closed alternative. -/
theorem reveal_row_matches_result (N c p : ℤ) (k : ℕ)
    (hN : 3 ≤ N) (hN' : N ≤ 10) (hc : 1 ≤ c) (hc' : c ≤ N)
    (hp : 1 ≤ p) (hp' : p ≤ N) (row : List Char) (cl : ℤ)
    (h : open_goat_doors c p N k = some (row, cl)) :
    row.length = N.toNat ∧
    (∀ j : ℕ, j < N.toNat →
      ((row.get? j = some 'X') ↔ (1 + (j : ℤ) = c ∨ 1 + (j : ℤ) = cl))) := by
  obtain ⟨hrow, -⟩ := open_goat_doors_cases h
  subst hrow
  refine ⟨length_reveal_row (by omega), fun j hj => ?_⟩
  rw [get?_reveal_row hj]
  by_cases h1 : (1 + (j : ℤ) = c ∨ 1 + (j : ℤ) = cl)
  · simp [h1]
  · simp [h1]

theorem reveal_row_matches_result_witness :
    (reveal_row 3 2 4).length = (4 : ℤ).toNat ∧
    (∀ j : ℕ, j < (4 : ℤ).toNat →
      (((reveal_row 3 2 4).get? j = some 'X')
        ↔ (1 + (j : ℤ) = 2 ∨ 1 + (j : ℤ) = 3))) :=
  reveal_row_matches_result 4 2 2 1 (by decide) (by decide) (by decide)
    (by decide) (by decide) (by decide) (reveal_row 3 2 4) 3 (by decide)

end MontyHall
